import Mathlib

/-!
Verification of the classification and relationship-inference core of the
`semantic-model-generator` repository.

The Python modules `domain/types.py`, `utils/uuid_gen.py`,
`schema/classification.py` and `schema/relationships.py` are shallowly
embedded below.  Conventions of the embedding:

* Python `str` is Lean `String` (a structure over `List Char`); slicing and
  `startswith` are expressed through the underlying character list, and
  `str.strip` is `pyStrip` (ASCII whitespace; Python additionally strips a
  few rare Unicode space characters, which never occur in the inputs the
  claims are about).
* Python `dict` (insertion ordered, assignment to an existing key keeps its
  position) is an association list manipulated by `dictInsert` / `dictGet?`.
* Functions that can `raise` return `Except String _`; the error string is
  the message of the corresponding Python exception.
* `sorted` / `list.sort` (Timsort, stable) are modelled by Mathlib's stable
  `List.insertionSort`; a stable sort with respect to a total, transitive
  relation is unique, so the two agree elementwise.
* `uuid.uuid5(NAMESPACE, composite)` is a fixed pure injective-modulo-SHA1
  function of `composite`; the embedding represents the resulting UUID by
  the composite string itself, which preserves determinism and equality of
  identifiers.
-/

namespace SemanticModelGenerator

/-- Classification of a warehouse table in a star schema
(`TableClassification` in `domain/types.py`). -/
inductive TableClassification where
  | dimension
  | fact
  | unclassified
  deriving DecidableEq

/-- Immutable metadata for a warehouse column (`ColumnMetadata` in
`domain/types.py`), without the `__post_init__` validation, which is
modelled separately by `ColumnMetadata.validate`. -/
structure ColumnMetadata where
  name : String
  sql_type : String
  is_nullable : Bool
  ordinal_position : Int
  max_length : Option Int
  numeric_precision : Option Int
  numeric_scale : Option Int
  deriving DecidableEq

/-- Validation performed by `ColumnMetadata.__post_init__`: Python raises
`ValueError` when the name is empty (falsy) or the ordinal position is
below 1; otherwise the frozen dataclass is constructed unchanged. -/
def ColumnMetadata.validate (c : ColumnMetadata) : Except String ColumnMetadata :=
  if c.name = "" then .error "Column name cannot be empty"
  else if c.ordinal_position < 1 then .error "Ordinal position must be >= 1"
  else .ok c

/-- Immutable metadata for a warehouse table (`TableMetadata` in
`domain/types.py`). -/
structure TableMetadata where
  schema_name : String
  table_name : String
  columns : List ColumnMetadata
  deriving DecidableEq

/-- Inferred star-schema relationship (`Relationship` in `domain/types.py`).
The `id` field holds the composite string that the Python code feeds to
`uuid.uuid5` (see the module comment). -/
structure Relationship where
  id : String
  from_table : String
  from_column : String
  to_table : String
  to_column : String
  is_active : Bool
  cross_filtering_behavior : String
  from_cardinality : String
  to_cardinality : String
  deriving DecidableEq

/-- Python `str.startswith`: the characters of `p` are a prefix of the
characters of `s` (case-sensitive). -/
def pyStartswith (s p : String) : Bool :=
  p.data.isPrefixOf s.data

/-- Whitespace stripped by Python `str.strip` (restricted to the ASCII
whitespace characters; see the module comment). -/
def isPyWhitespaceChar (c : Char) : Bool :=
  c == ' ' || c == '\t' || c == '\n' || c == '\r' || c == '\x0b' || c == '\x0c'

/-- Python `str.strip()`: drop whitespace characters from both ends. -/
def pyStrip (s : String) : String :=
  ⟨((s.data.dropWhile isPyWhitespaceChar).reverse.dropWhile isPyWhitespaceChar).reverse⟩

/-- Python `str.lower()` (restricted to ASCII case mapping). -/
def pyLower (s : String) : String :=
  ⟨s.data.map Char.toLower⟩

/-- Embeds `generate_deterministic_uuid` from `utils/uuid_gen.py`.  The
Python function lowercases and strips the object type, strips the object
name, raises `ValueError` when either normalized part is empty, and
otherwise returns `uuid5(SEMANTIC_MODEL_NAMESPACE, type ++ ":" ++ name)`;
the UUID is represented by that composite string. -/
def generate_deterministic_uuid (object_type object_name : String) : Except String String :=
  let normalized_type := pyLower (pyStrip object_type)
  let normalized_name := pyStrip object_name
  if normalized_type = "" then .error "object_type cannot be empty"
  else if normalized_name = "" then .error "object_name cannot be empty"
  else .ok (normalized_type ++ ":" ++ normalized_name)

/-- Embeds `classify_table` from `schema/classification.py`: count the
columns whose name starts with any configured key prefix (case-sensitive)
and map 1 to dimension, 2-or-more to fact, 0 to unclassified. -/
def classify_table (columns : List ColumnMetadata) (key_prefixes : List String) :
    TableClassification :=
  let key_count := columns.countP fun col => key_prefixes.any fun p => pyStartswith col.name p
  if key_count = 1 then .dimension
  else if 2 ≤ key_count then .fact
  else .unclassified

/-- Embeds `classify_tables` from `schema/classification.py`: the Python
dict comprehension keyed by `(schema_name, table_name)`, read back as a
lookup function.  A duplicated key keeps the value of the last table with
that key, exactly as repeated dict assignment does. -/
def classify_tables (tables : List TableMetadata) (key_prefixes : List String) :
    String × String → Option TableClassification :=
  tables.foldl
    (fun m t k =>
      if k = (t.schema_name, t.table_name) then some (classify_table t.columns key_prefixes)
      else m k)
    (fun _ => none)

/-- Embeds `strip_prefix` from `schema/relationships.py`: strip the first
matching key prefix (`column_name[len(p):]`), `none` when no prefix
matches, the empty string when the name equals the matched prefix. -/
def stripPfx (column_name : String) (key_prefixes : List String) : Option String :=
  match key_prefixes with
  | [] => none
  | p :: ps =>
      if pyStartswith column_name p then some ⟨column_name.data.drop p.data.length⟩
      else stripPfx column_name ps

/-- Embeds `is_exact_match` from `schema/relationships.py`: Python
`column_name in key_prefixes`. -/
def is_exact_match (column_name : String) (key_prefixes : List String) : Bool :=
  key_prefixes.contains column_name

/-- The dimension lookup built by `infer_relationships`: an
insertion-ordered dict from a prefix-stripped base name to the dimension's
qualified name and key-column name. -/
abbrev DimLookup := List (String × String × String)

/-- Python dict assignment `d[k] = v`: overwrite in place when the key is
present (keeping its position), otherwise append. -/
def dictInsert (d : DimLookup) (k : String) (v : String × String) : DimLookup :=
  if d.any fun e => e.1 == k then d.map fun e => if e.1 == k then (k, v) else e
  else d ++ [(k, v)]

/-- Python dict read `d[k]` / `k in d`: the unique entry with key `k`. -/
def dictGet? (d : DimLookup) (k : String) : Option (String × String) :=
  (d.find? fun e => e.1 == k).map fun e => e.2

/-- The dimension-lookup entry contributed by one Dimension-classified
table in `infer_relationships` (lines 75-88 of `relationships.py`): the
table contributes `(base, qualified_name, key_column)` when its columns
contain exactly one prefix-matching column, that column's stripped base is
non-empty and its name is not an exact match of a prefix. -/
def dimEntry (key_prefixes : List String) (dim : TableMetadata) :
    Option (String × String × String) :=
  match dim.columns.filter fun col => (stripPfx col.name key_prefixes).isSome with
  | [dim_key_col] =>
      match stripPfx dim_key_col.name key_prefixes with
      | some dim_base =>
          if dim_base != "" && !(is_exact_match dim_key_col.name key_prefixes) then
            some (dim_base, dim.schema_name ++ "." ++ dim.table_name, dim_key_col.name)
          else none
      | none => none
  | _ => none

/-- The dimension lookup of `infer_relationships`: fold the qualifying
dimensions into the dict in input order (a later dimension with the same
base overwrites an earlier one, as Python dict assignment does). -/
def buildDimLookup (dimensions : List TableMetadata) (key_prefixes : List String) : DimLookup :=
  dimensions.foldl
    (fun d dim =>
      match dimEntry key_prefixes dim with
      | some (b, q, c) => dictInsert d b (q, c)
      | none => d)
    []

/-- The role-playing test of `infer_relationships` (lines 130-132): the
fact base starts with the dimension base, is strictly longer, and the
character right after the dimension base is an underscore. -/
def rolePlayMatches (fact_base dim_base : String) : Bool :=
  pyStartswith fact_base dim_base &&
    match fact_base.data.drop dim_base.data.length with
    | c :: _ => c == '_'
    | [] => false

/-- The role-playing loop of `infer_relationships` (lines 128-147): scan
the lookup in insertion order and stop at the first dimension whose base
role-play-matches the fact base. -/
def firstRolePlay (dim_lookup : DimLookup) (fact_base : String) : Option (String × String) :=
  match dim_lookup with
  | [] => none
  | (dim_base, qc) :: rest =>
      if rolePlayMatches fact_base dim_base then some qc else firstRolePlay rest fact_base

/-- The dimension targeted by one fact key column in `infer_relationships`:
an exact base-name hit in the lookup, and otherwise the first role-playing
match in lookup insertion order. -/
def matchTarget (dim_lookup : DimLookup) (fact_base : String) : Option (String × String) :=
  match dictGet? dim_lookup fact_base with
  | some qc => some qc
  | none => firstRolePlay dim_lookup fact_base

/-- The composite string fed to `uuid5` for a relationship identifier. -/
def relIdStr (ft fc tt tc : String) : String :=
  "relationship:" ++ pyStrip (ft ++ "." ++ fc ++ "->" ++ tt ++ "." ++ tc)

/-- A candidate relationship as constructed in `infer_relationships`: the
dataclass defaults `oneDirection` / `many` / `one` are filled in and the
candidate starts out active. -/
def mkCandidate (ft fc tt tc : String) : Relationship :=
  { id := relIdStr ft fc tt tc
    from_table := ft
    from_column := fc
    to_table := tt
    to_column := tc
    is_active := true
    cross_filtering_behavior := "oneDirection"
    from_cardinality := "many"
    to_cardinality := "one" }

/-- The candidate relationships produced by one fact column (lines 101-147
of `relationships.py`), with the `generate_deterministic_uuid` call kept
fallible: skip exact prefix matches, strip the prefix, look up the target
dimension, and emit one active candidate when a target exists. -/
def factColCandidate (key_prefixes : List String) (dim_lookup : DimLookup)
    (fact_qualified : String) (fact_col : ColumnMetadata) :
    Except String (List Relationship) :=
  if is_exact_match fact_col.name key_prefixes then .ok []
  else
    match stripPfx fact_col.name key_prefixes with
    | none => .ok []
    | some fact_base =>
        match matchTarget dim_lookup fact_base with
        | none => .ok []
        | some (dim_qualified, dim_col) => do
            let rel_id ← generate_deterministic_uuid "relationship"
              (fact_qualified ++ "." ++ fact_col.name ++ "->" ++ dim_qualified ++ "." ++ dim_col)
            .ok [{ id := rel_id
                   from_table := fact_qualified
                   from_column := fact_col.name
                   to_table := dim_qualified
                   to_column := dim_col
                   is_active := true
                   cross_filtering_behavior := "oneDirection"
                   from_cardinality := "many"
                   to_cardinality := "one" }]

/-- Fallible flat map over a list, propagating the first error: the shape
of a Python loop that appends to an accumulator and may raise. -/
def exceptFlatMap (f : α → Except String (List β)) : List α → Except String (List β)
  | [] => .ok []
  | a :: as => do
      let bs ← f a
      let rest ← exceptFlatMap f as
      .ok (bs ++ rest)

/-- The `(from_table, to_table)` grouping key of role-playing resolution. -/
def relPairKey (r : Relationship) : String × String :=
  (r.from_table, r.to_table)

/-- The grouping keys in first-occurrence order, as produced by iterating
`defaultdict.values()` in `infer_relationships` (lines 151-155). -/
def groupKeys (rels : List Relationship) : List (String × String) :=
  rels.foldl (fun ks r => if ks.contains (relPairKey r) then ks else ks ++ [relPairKey r]) []

/-- Ordering of a role-playing group by `from_column`, the sort key of
`sorted(group_rels, key=lambda r: r.from_column)`.  Python compares
strings lexicographically by code point, which is the lexicographic order
on the underlying character lists. -/
def colLE (a b : Relationship) : Prop :=
  a.from_column.data ≤ b.from_column.data

instance : DecidableRel colLE := fun a b =>
  inferInstanceAs (Decidable (a.from_column.data ≤ b.from_column.data))

instance : IsTotal Relationship colLE :=
  ⟨fun a b => le_total a.from_column.data b.from_column.data⟩

instance : IsTrans Relationship colLE :=
  ⟨fun _ _ _ h h' => le_trans h h'⟩

/-- The inactive rewrite of lines 173-183 of `relationships.py`: the same
relationship with `is_active` set to false and every other field copied. -/
def deactivate (r : Relationship) : Relationship :=
  { id := r.id
    from_table := r.from_table
    from_column := r.from_column
    to_table := r.to_table
    to_column := r.to_column
    is_active := false
    cross_filtering_behavior := r.cross_filtering_behavior
    from_cardinality := r.from_cardinality
    to_cardinality := r.to_cardinality }

/-- Role-playing resolution of one group (lines 159-184): a singleton group
is kept as is; a larger group is sorted by `from_column` (stably), the
first relationship kept and the rest deactivated.  Python would raise
`IndexError` on an empty group; groups are never empty. -/
def processGroup (g : List Relationship) : Except String (List Relationship) :=
  match g with
  | [r] => .ok [r]
  | _ =>
      match g.insertionSort colLE with
      | [] => .error "IndexError: list index out of range"
      | r :: rest => .ok (r :: rest.map deactivate)

/-- The sort key of the final ordering of `infer_relationships` (line
187): the tuple `(from_table, from_column, to_table, to_column)` under the
lexicographic tuple order, each component compared as Python compares
strings (lexicographically by code point). -/
def relSortKey (r : Relationship) :
    Lex (List Char × Lex (List Char × Lex (List Char × List Char))) :=
  toLex (r.from_table.data,
    toLex (r.from_column.data, toLex (r.to_table.data, r.to_column.data)))

/-- The final output ordering of `infer_relationships` (line 187). -/
def relLE (a b : Relationship) : Prop :=
  relSortKey a ≤ relSortKey b

instance : DecidableRel relLE := fun _ _ =>
  inferInstanceAs (Decidable (_ ≤ _))

instance : IsTotal Relationship relLE :=
  ⟨fun _ _ => le_total _ _⟩

instance : IsTrans Relationship relLE :=
  ⟨fun _ _ _ h h' => le_trans h h'⟩

/-- The fact partition of lines 62-70 of `relationships.py`: the tables
whose classification lookup yields Fact, in input order. -/
def factsOf (tables : List TableMetadata)
    (classifications : String × String → Option TableClassification) : List TableMetadata :=
  tables.filter fun t => classifications (t.schema_name, t.table_name) == some .fact

/-- The dimension partition of lines 62-70 of `relationships.py`. -/
def dimensionsOf (tables : List TableMetadata)
    (classifications : String × String → Option TableClassification) : List TableMetadata :=
  tables.filter fun t => classifications (t.schema_name, t.table_name) == some .dimension

/-- The qualified name `f"{schema_name}.{table_name}"`. -/
def qualifiedName (t : TableMetadata) : String :=
  t.schema_name ++ "." ++ t.table_name

/-- The dimension lookup that `infer_relationships` builds for its input. -/
def dimLookupOf (tables : List TableMetadata)
    (classifications : String × String → Option TableClassification)
    (key_prefixes : List String) : DimLookup :=
  buildDimLookup (dimensionsOf tables classifications) key_prefixes

/-- Embeds `infer_relationships` from `schema/relationships.py`.  The
classification dict is passed as its lookup function (`dict.get`).  Errors
of `generate_deterministic_uuid` and the unreachable empty-group access
propagate as `Except.error`. -/
def infer_relationships (tables : List TableMetadata)
    (classifications : String × String → Option TableClassification)
    (key_prefixes : List String) : Except String (List Relationship) :=
  if tables.isEmpty then .ok []
  else do
    let relationships ← exceptFlatMap
      (fun fact => exceptFlatMap
        (factColCandidate key_prefixes (dimLookupOf tables classifications key_prefixes)
          (qualifiedName fact))
        fact.columns)
      (factsOf tables classifications)
    let final ← exceptFlatMap
      (fun k => processGroup (relationships.filter fun r => relPairKey r == k))
      (groupKeys relationships)
    .ok (final.insertionSort relLE)

/-! ### A pure description of `infer_relationships`

`infer_relationships` is proved below never to hit an error case; the
following total functions compute the same result and are the vehicle for
the structural lemmas. -/

/-- Error-free counterpart of `factColCandidate`. -/
def factColCandidateP (key_prefixes : List String) (dim_lookup : DimLookup)
    (fact_qualified : String) (fact_col : ColumnMetadata) : List Relationship :=
  if is_exact_match fact_col.name key_prefixes then []
  else
    match stripPfx fact_col.name key_prefixes with
    | none => []
    | some fact_base =>
        match matchTarget dim_lookup fact_base with
        | none => []
        | some (dim_qualified, dim_col) =>
            [mkCandidate fact_qualified fact_col.name dim_qualified dim_col]

/-- The candidate relationships of `infer_relationships`, fact by fact and
column by column. -/
def candidatesP (tables : List TableMetadata)
    (classifications : String × String → Option TableClassification)
    (key_prefixes : List String) : List Relationship :=
  (factsOf tables classifications).flatMap fun fact =>
    fact.columns.flatMap
      (factColCandidateP key_prefixes (dimLookupOf tables classifications key_prefixes)
        (qualifiedName fact))

/-- Error-free counterpart of `processGroup`. -/
def processGroupP (g : List Relationship) : List Relationship :=
  match g with
  | [r] => [r]
  | _ =>
      match g.insertionSort colLE with
      | [] => []
      | r :: rest => r :: rest.map deactivate

/-- Role-playing resolution over all groups, in first-occurrence key
order. -/
def groupedP (rels : List Relationship) : List Relationship :=
  (groupKeys rels).flatMap fun k => processGroupP (rels.filter fun r => relPairKey r == k)

/-- Error-free counterpart of `infer_relationships`. -/
def inferP (tables : List TableMetadata)
    (classifications : String × String → Option TableClassification)
    (key_prefixes : List String) : List Relationship :=
  if tables.isEmpty then []
  else (groupedP (candidatesP tables classifications key_prefixes)).insertionSort relLE

/-! ### Concrete fixtures used by witnesses and counterexamples -/

/-- A column with the given name and ordinal position and neutral metadata. -/
def exCol (n : String) (i : Int) : ColumnMetadata :=
  ⟨n, "int", false, i, none, none, none⟩

/-- The role-playing dimension of the spec's worked scenario. -/
def exDimCustomer : TableMetadata :=
  ⟨"dbo", "DimCustomer", [exCol "ID_Customer" 1]⟩

/-- The role-playing fact of the spec's worked scenario. -/
def exFactSales : TableMetadata :=
  ⟨"dbo", "FactSales", [exCol "ID_Customer" 1, exCol "ID_Customer_ShipTo" 2]⟩

/-- Classification map for the spec's worked scenario. -/
def exCls : String × String → Option TableClassification := fun k =>
  if k = ("dbo", "DimCustomer") then some .dimension
  else if k = ("dbo", "FactSales") then some .fact
  else none

/-- A dimension keyed `SK_Customer`, used with the prefix list
`["SK_", "FK_"]`. -/
def exDimSK : TableMetadata := ⟨"s", "d", [exCol "SK_Customer" 1]⟩

/-- A fact with the single key column `FK_Customer`. -/
def exFactFK : TableMetadata := ⟨"s", "f", [exCol "FK_Customer" 1]⟩

/-- Classification map putting `s.d` as dimension and `s.f` as fact. -/
def exClsSD : String × String → Option TableClassification := fun k =>
  if k = ("s", "d") then some .dimension
  else if k = ("s", "f") then some .fact
  else none

/-- A dimension holding both a bare-prefix column `SK_` and a real key
column `SK_Customer`. -/
def exDimExact : TableMetadata := ⟨"s", "d", [exCol "SK_" 1, exCol "SK_Customer" 2]⟩

/-- A fact with key columns `SK_Customer` and `SK_Order`. -/
def exFactSK : TableMetadata := ⟨"s", "f", [exCol "SK_Customer" 1, exCol "SK_Order" 2]⟩

/-- First of two dimensions whose key columns strip to the same base. -/
def exDimFirst : TableMetadata := ⟨"s", "d1", [exCol "SK_Customer" 1]⟩

/-- Second dimension with the same stripped base `Customer`. -/
def exDimLast : TableMetadata := ⟨"s", "d2", [exCol "ID_Customer" 1]⟩

/-- Classification map with two dimensions and one fact. -/
def exClsTwoDims : String × String → Option TableClassification := fun k =>
  if k = ("s", "d1") then some .dimension
  else if k = ("s", "d2") then some .dimension
  else if k = ("s", "f") then some .fact
  else none

/-! ### `infer_relationships` never errors and agrees with `inferP` -/

theorem mem_dropWhile_of_neg {p : α → Bool} {l : List α} {c : α}
    (hc : c ∈ l) (hp : p c = false) : c ∈ l.dropWhile p := by
  induction l with
  | nil => cases hc
  | cons a as ih =>
      rw [List.dropWhile_cons]
      by_cases ha : p a = true
      · rw [if_pos ha]
        rcases List.mem_cons.mp hc with rfl | h
        · rw [hp] at ha; cases ha
        · exact ih h
      · rw [if_neg ha]
        exact hc

theorem pyStrip_ne_empty {s : String} {c : Char}
    (hc : c ∈ s.data) (hw : isPyWhitespaceChar c = false) : pyStrip s ≠ "" := by
  intro h
  have hdata : ((s.data.dropWhile isPyWhitespaceChar).reverse.dropWhile
      isPyWhitespaceChar).reverse = [] := congrArg String.data h
  rw [List.reverse_eq_nil_iff] at hdata
  have h1 : c ∈ (s.data.dropWhile isPyWhitespaceChar).reverse :=
    List.mem_reverse.mpr (mem_dropWhile_of_neg hc hw)
  have h2 := List.dropWhile_eq_nil_iff.mp hdata c h1
  rw [hw] at h2
  cases h2

theorem generate_uuid_relationship_ok (ft fc tt tc : String) :
    generate_deterministic_uuid "relationship" (ft ++ "." ++ fc ++ "->" ++ tt ++ "." ++ tc)
      = .ok (relIdStr ft fc tt tc) := by
  have hmem : '>' ∈ (ft ++ "." ++ fc ++ "->" ++ tt ++ "." ++ tc).data := by
    have : '>' ∈ ("->" : String).data := by decide
    simp only [String.data_append, List.mem_append]
    tauto
  have hne := pyStrip_ne_empty hmem (by decide)
  simp only [generate_deterministic_uuid, relIdStr]
  rw [if_neg (by decide : ¬(pyLower (pyStrip "relationship") = ""))]
  rw [if_neg hne]
  rw [show pyLower (pyStrip "relationship") ++ ":" = "relationship:" from by decide]

theorem exceptFlatMap_eq_ok {f : α → Except String (List β)} {g : α → List β}
    (l : List α) (h : ∀ a ∈ l, f a = .ok (g a)) :
    exceptFlatMap f l = .ok (l.flatMap g) := by
  induction l with
  | nil => rfl
  | cons a as ih =>
      have ha := h a (List.mem_cons_self a as)
      have ih' := ih fun x hx => h x (List.mem_cons_of_mem _ hx)
      simp only [exceptFlatMap, ha, ih', List.flatMap_cons]
      rfl

theorem factColCandidate_eq_ok (ps : List String) (dl : DimLookup) (fq : String)
    (col : ColumnMetadata) :
    factColCandidate ps dl fq col = .ok (factColCandidateP ps dl fq col) := by
  unfold factColCandidate factColCandidateP
  split
  · rfl
  · split
    · rfl
    · split
      · rfl
      · rw [generate_uuid_relationship_ok]
        rfl

theorem processGroup_eq_ok {g : List Relationship} (h : g ≠ []) :
    processGroup g = .ok (processGroupP g) := by
  match g with
  | [] => exact absurd rfl h
  | [r] => rfl
  | a :: b :: t =>
      have hlen : (List.insertionSort colLE (a :: b :: t)).length = t.length + 2 := by
        rw [List.length_insertionSort]; rfl
      show (match List.insertionSort colLE (a :: b :: t) with
            | [] => (Except.error "IndexError: list index out of range" :
                Except String (List Relationship))
            | r :: rest => .ok (r :: rest.map deactivate)) =
          .ok (match List.insertionSort colLE (a :: b :: t) with
            | [] => ([] : List Relationship)
            | r :: rest => r :: rest.map deactivate)
      cases hs : List.insertionSort colLE (a :: b :: t) with
      | nil => rw [hs] at hlen; cases hlen
      | cons x xs => rfl

theorem mem_groupKeys_aux {k : String × String} :
    ∀ (rels : List Relationship) (acc : List (String × String)),
    k ∈ rels.foldl
      (fun ks r => if ks.contains (relPairKey r) then ks else ks ++ [relPairKey r]) acc →
    k ∈ acc ∨ ∃ r ∈ rels, relPairKey r = k := by
  intro rels
  induction rels with
  | nil => exact fun acc h => Or.inl h
  | cons r rs ih =>
      intro acc h
      rw [List.foldl_cons] at h
      rcases ih _ h with h' | ⟨r', hr', hk⟩
      · by_cases hc : acc.contains (relPairKey r) = true
        · rw [if_pos hc] at h'
          exact Or.inl h'
        · rw [if_neg hc] at h'
          rcases List.mem_append.mp h' with h'' | h''
          · exact Or.inl h''
          · exact Or.inr ⟨r, List.mem_cons_self r rs, (List.mem_singleton.mp h'').symm⟩
      · exact Or.inr ⟨r', List.mem_cons_of_mem _ hr', hk⟩

theorem mem_of_mem_groupKeys {rels : List Relationship} {k : String × String}
    (h : k ∈ groupKeys rels) : ∃ r ∈ rels, relPairKey r = k := by
  rcases mem_groupKeys_aux rels [] h with h' | h'
  · cases h'
  · exact h'

theorem group_ne_nil {rels : List Relationship} {k : String × String}
    (h : k ∈ groupKeys rels) : rels.filter (fun r => relPairKey r == k) ≠ [] := by
  obtain ⟨r, hr, hk⟩ := mem_of_mem_groupKeys h
  intro hnil
  have : r ∈ rels.filter (fun r => relPairKey r == k) :=
    List.mem_filter.mpr ⟨hr, by simp [hk]⟩
  rw [hnil] at this
  cases this

theorem infer_relationships_eq_ok (tables : List TableMetadata)
    (classifications : String × String → Option TableClassification)
    (key_prefixes : List String) :
    infer_relationships tables classifications key_prefixes
      = .ok (inferP tables classifications key_prefixes) := by
  unfold infer_relationships inferP
  by_cases he : tables.isEmpty = true
  · rw [if_pos he, if_pos he]
  · rw [if_neg he, if_neg he]
    have hcand : exceptFlatMap
        (fun fact => exceptFlatMap
          (factColCandidate key_prefixes (dimLookupOf tables classifications key_prefixes)
            (qualifiedName fact))
          fact.columns)
        (factsOf tables classifications)
        = .ok (candidatesP tables classifications key_prefixes) :=
      exceptFlatMap_eq_ok _ fun fact _ =>
        exceptFlatMap_eq_ok _ fun col _ => factColCandidate_eq_ok _ _ _ _
    have hgroups : exceptFlatMap
        (fun k => processGroup
          ((candidatesP tables classifications key_prefixes).filter fun r => relPairKey r == k))
        (groupKeys (candidatesP tables classifications key_prefixes))
        = .ok (groupedP (candidatesP tables classifications key_prefixes)) :=
      exceptFlatMap_eq_ok _ fun k hk => processGroup_eq_ok (group_ne_nil hk)
    rw [hcand]
    show exceptFlatMap _ (groupKeys (candidatesP tables classifications key_prefixes)) >>=
        (fun final => Except.ok (final.insertionSort relLE)) = _
    rw [hgroups]
    rfl

/-! ### Structure of the candidate list and of the grouped output -/

theorem mem_factColCandidateP {ps : List String} {dl : DimLookup} {fq : String}
    {col : ColumnMetadata} {r : Relationship} :
    r ∈ factColCandidateP ps dl fq col ↔
      is_exact_match col.name ps = false ∧
      ∃ b, stripPfx col.name ps = some b ∧
        ∃ qc, matchTarget dl b = some qc ∧ r = mkCandidate fq col.name qc.1 qc.2 := by
  unfold factColCandidateP
  split
  next h => simp [h]
  next h =>
    split
    next heq => simp [h, heq]
    next b heq =>
      split
      next hm => simp [h, heq, hm]
      next q c hm =>
        constructor
        · intro hr
          exact ⟨by simpa using h, b, heq, (q, c), hm, by rw [List.mem_singleton.mp hr]⟩
        · rintro ⟨-, b', hb', qc, hqc, rfl⟩
          rw [heq] at hb'
          injection hb' with hbb
          subst hbb
          rw [hm] at hqc
          injection hqc with hqc'
          subst hqc'
          exact List.mem_singleton.mpr rfl

theorem mem_candidatesP {tables : List TableMetadata}
    {cls : String × String → Option TableClassification} {ps : List String}
    {r : Relationship} :
    r ∈ candidatesP tables cls ps ↔
      ∃ f ∈ factsOf tables cls, ∃ col ∈ f.columns,
        r ∈ factColCandidateP ps (dimLookupOf tables cls ps) (qualifiedName f) col := by
  simp [candidatesP, List.mem_flatMap]

theorem candidatesP_shape {tables : List TableMetadata}
    {cls : String × String → Option TableClassification} {ps : List String}
    {r : Relationship} (h : r ∈ candidatesP tables cls ps) :
    ∃ ft fc tt tc, r = mkCandidate ft fc tt tc := by
  obtain ⟨f, -, col, -, hmem⟩ := mem_candidatesP.mp h
  obtain ⟨-, b, -, qc, -, rfl⟩ := mem_factColCandidateP.mp hmem
  exact ⟨_, _, _, _, rfl⟩

theorem candidatesP_active {tables : List TableMetadata}
    {cls : String × String → Option TableClassification} {ps : List String}
    {r : Relationship} (h : r ∈ candidatesP tables cls ps) : r.is_active = true := by
  obtain ⟨ft, fc, tt, tc, rfl⟩ := candidatesP_shape h
  rfl

theorem relPairKey_deactivate (r : Relationship) :
    relPairKey (deactivate r) = relPairKey r := rfl

theorem processGroupP_cases (g : List Relationship) :
    (g = [] ∧ processGroupP g = []) ∨
    (∃ a, g = [a] ∧ processGroupP g = [a]) ∨
    (∃ x xs, g.insertionSort colLE = x :: xs ∧
      processGroupP g = x :: xs.map deactivate ∧ List.Pairwise colLE (x :: xs)) := by
  match g with
  | [] => exact Or.inl ⟨rfl, rfl⟩
  | [a] => exact Or.inr (Or.inl ⟨a, rfl, rfl⟩)
  | a :: b :: t =>
      refine Or.inr (Or.inr ?_)
      have hlen : (List.insertionSort colLE (a :: b :: t)).length = t.length + 2 := by
        rw [List.length_insertionSort]; rfl
      cases hs : List.insertionSort colLE (a :: b :: t) with
      | nil => rw [hs] at hlen; cases hlen
      | cons x xs =>
          refine ⟨x, xs, rfl, ?_, ?_⟩
          · show (match List.insertionSort colLE (a :: b :: t) with
                  | [] => ([] : List Relationship)
                  | r :: rest => r :: rest.map deactivate) = _
            rw [hs]
          · have := List.sorted_insertionSort colLE (a :: b :: t)
            rw [hs] at this
            exact this

theorem mem_processGroupP {g : List Relationship} {r' : Relationship}
    (h : r' ∈ processGroupP g) : ∃ r ∈ g, r' = r ∨ r' = deactivate r := by
  rcases processGroupP_cases g with ⟨rfl, hp⟩ | ⟨a, rfl, hp⟩ | ⟨x, xs, hs, hp, -⟩
  · rw [hp] at h; cases h
  · rw [hp] at h
    exact ⟨a, List.mem_singleton.mpr rfl, Or.inl (List.mem_singleton.mp h)⟩
  · rw [hp] at h
    have hperm := List.perm_insertionSort colLE g
    rw [hs] at hperm
    rcases List.mem_cons.mp h with rfl | hmem
    · exact ⟨r', hperm.mem_iff.mp (List.mem_cons_self _ _), Or.inl rfl⟩
    · obtain ⟨y, hy, rfl⟩ := List.mem_map.mp hmem
      exact ⟨y, hperm.mem_iff.mp (List.mem_cons_of_mem _ hy), Or.inr rfl⟩

theorem mem_processGroupP_of_mem {g : List Relationship} {r : Relationship} (h : r ∈ g) :
    r ∈ processGroupP g ∨ deactivate r ∈ processGroupP g := by
  rcases processGroupP_cases g with ⟨rfl, hp⟩ | ⟨a, rfl, hp⟩ | ⟨x, xs, hs, hp, -⟩
  · cases h
  · rw [hp]
    exact Or.inl h
  · have hperm := List.perm_insertionSort colLE g
    rw [hs] at hperm
    rcases List.mem_cons.mp (hperm.mem_iff.mpr h) with rfl | hmem
    · rw [hp]; exact Or.inl (List.mem_cons_self _ _)
    · rw [hp]
      exact Or.inr (List.mem_cons_of_mem _ (List.mem_map.mpr ⟨r, hmem, rfl⟩))

theorem groupKeys_aux_subset (rels : List Relationship) :
    ∀ acc : List (String × String),
      acc ⊆ rels.foldl
        (fun ks r => if ks.contains (relPairKey r) then ks else ks ++ [relPairKey r]) acc := by
  induction rels with
  | nil => exact fun _ _ h => h
  | cons r rs ih =>
      intro acc x hx
      rw [List.foldl_cons]
      apply ih
      by_cases hc : acc.contains (relPairKey r) = true
      · rw [if_pos hc]; exact hx
      · rw [if_neg hc]; exact List.mem_append.mpr (Or.inl hx)

theorem relPairKey_mem_groupKeys_aux (rels : List Relationship) :
    ∀ (acc : List (String × String)) {r : Relationship}, r ∈ rels →
      relPairKey r ∈ rels.foldl
        (fun ks r => if ks.contains (relPairKey r) then ks else ks ++ [relPairKey r]) acc := by
  induction rels with
  | nil => exact fun _ _ h => absurd h (List.not_mem_nil _)
  | cons a as ih =>
      intro acc r h
      rw [List.foldl_cons]
      rcases List.mem_cons.mp h with rfl | h'
      · apply groupKeys_aux_subset
        by_cases hc : acc.contains (relPairKey r) = true
        · rw [if_pos hc]
          obtain ⟨y, hy, hbeq⟩ := List.contains_iff_exists_mem_beq.mp hc
          rw [beq_iff_eq] at hbeq
          rw [hbeq]
          exact hy
        · rw [if_neg hc]
          exact List.mem_append.mpr (Or.inr (List.mem_singleton.mpr rfl))
      · exact ih _ h'

theorem relPairKey_mem_groupKeys {rels : List Relationship} {r : Relationship}
    (h : r ∈ rels) : relPairKey r ∈ groupKeys rels :=
  relPairKey_mem_groupKeys_aux rels [] h

theorem groupKeys_nodup_aux (rels : List Relationship) :
    ∀ acc : List (String × String), acc.Nodup →
      (rels.foldl
        (fun ks r => if ks.contains (relPairKey r) then ks else ks ++ [relPairKey r]) acc).Nodup := by
  induction rels with
  | nil => exact fun _ h => h
  | cons r rs ih =>
      intro acc hacc
      rw [List.foldl_cons]
      apply ih
      by_cases hc : acc.contains (relPairKey r) = true
      · rw [if_pos hc]; exact hacc
      · rw [if_neg hc]
        rw [List.nodup_append]
        refine ⟨hacc, List.nodup_singleton _, ?_⟩
        intro x hx hx'
        rw [List.mem_singleton.mp hx'] at hx
        exact hc (List.contains_iff_exists_mem_beq.mpr ⟨_, hx, beq_iff_eq.mpr rfl⟩)

theorem groupKeys_nodup (rels : List Relationship) : (groupKeys rels).Nodup :=
  groupKeys_nodup_aux rels [] List.nodup_nil

theorem pair_of_mem_group {rels : List Relationship} {k : String × String} {r' : Relationship}
    (h : r' ∈ processGroupP (rels.filter fun r => relPairKey r == k)) :
    relPairKey r' = k := by
  obtain ⟨r, hr, hs⟩ := mem_processGroupP h
  have hk : relPairKey r = k := by simpa using (List.mem_filter.mp hr).2
  rcases hs with rfl | rfl
  · exact hk
  · rw [relPairKey_deactivate]; exact hk

theorem mem_groupedP {rels : List Relationship} {r' : Relationship}
    (h : r' ∈ groupedP rels) : ∃ r ∈ rels, r' = r ∨ r' = deactivate r := by
  obtain ⟨k, hk, hmem⟩ := List.mem_flatMap.mp h
  obtain ⟨r, hr, hshape⟩ := mem_processGroupP hmem
  exact ⟨r, (List.mem_filter.mp hr).1, hshape⟩

theorem mem_groupedP_of_mem {rels : List Relationship} {r : Relationship} (h : r ∈ rels) :
    r ∈ groupedP rels ∨ deactivate r ∈ groupedP rels := by
  have hk : relPairKey r ∈ groupKeys rels := relPairKey_mem_groupKeys h
  have hrg : r ∈ rels.filter (fun x => relPairKey x == relPairKey r) :=
    List.mem_filter.mpr ⟨h, by simp⟩
  rcases mem_processGroupP_of_mem hrg with h' | h'
  · exact Or.inl (List.mem_flatMap.mpr ⟨relPairKey r, hk, h'⟩)
  · exact Or.inr (List.mem_flatMap.mpr ⟨relPairKey r, hk, h'⟩)

theorem inferP_perm (tables : List TableMetadata)
    (cls : String × String → Option TableClassification) (ps : List String) :
    (inferP tables cls ps).Perm (groupedP (candidatesP tables cls ps)) := by
  unfold inferP
  by_cases he : tables.isEmpty = true
  · rw [if_pos he]
    have ht : tables = [] := List.isEmpty_iff.mp he
    subst ht
    exact List.Perm.refl _
  · rw [if_neg he]
    exact List.perm_insertionSort relLE _

theorem mem_inferP {tables : List TableMetadata}
    {cls : String × String → Option TableClassification} {ps : List String}
    {r : Relationship} :
    r ∈ inferP tables cls ps ↔ r ∈ groupedP (candidatesP tables cls ps) :=
  (inferP_perm tables cls ps).mem_iff

theorem mem_inferP_structure {tables : List TableMetadata}
    {cls : String × String → Option TableClassification} {ps : List String}
    {r' : Relationship} (h : r' ∈ inferP tables cls ps) :
    ∃ r ∈ candidatesP tables cls ps, r' = r ∨ r' = deactivate r :=
  mem_groupedP (mem_inferP.mp h)

/-! ### At most one active relationship per table pair -/

/-- An active relationship between the pair `q` of qualified table names. -/
def activeForPair (q : String × String) (r : Relationship) : Bool :=
  relPairKey r == q && r.is_active

theorem activeForPair_deactivate (q : String × String) (r : Relationship) :
    activeForPair q (deactivate r) = false := by
  simp [activeForPair, deactivate]

theorem countP_processGroupP_le_one (g : List Relationship) (p : Relationship → Bool)
    (hp : ∀ r, p (deactivate r) = false) : (processGroupP g).countP p ≤ 1 := by
  rcases processGroupP_cases g with ⟨-, hpg⟩ | ⟨a, -, hpg⟩ | ⟨x, xs, -, hpg, -⟩
  · rw [hpg]; simp
  · rw [hpg]
    have hlen : ([a].countP p) ≤ [a].length := List.countP_le_length p
    simpa using hlen
  · rw [hpg, List.countP_cons]
    have hzero : (xs.map deactivate).countP p = 0 := by
      rw [List.countP_eq_zero]
      intro r' hr'
      obtain ⟨y, -, rfl⟩ := List.mem_map.mp hr'
      simp [hp y]
    rw [hzero]
    split <;> omega

theorem countP_group_of_ne {rels : List Relationship} {k q : String × String} (hkq : k ≠ q) :
    (processGroupP (rels.filter fun r => relPairKey r == k)).countP (activeForPair q) = 0 := by
  rw [List.countP_eq_zero]
  intro r' hr'
  have hk : relPairKey r' = k := pair_of_mem_group hr'
  simp [activeForPair, hk, hkq]

theorem countP_groupedP_aux (rels : List Relationship) (q : String × String) :
    ∀ ks : List (String × String), ks.Nodup →
      ((ks.flatMap fun k => processGroupP (rels.filter fun r => relPairKey r == k)).countP
        (activeForPair q)) ≤ 1 := by
  intro ks
  induction ks with
  | nil => intro _; simp
  | cons k ks ih =>
      intro hnd
      obtain ⟨hk, hks⟩ := List.nodup_cons.mp hnd
      rw [List.flatMap_cons, List.countP_append]
      by_cases hkq : k = q
      · subst hkq
        have h1 : (processGroupP (rels.filter fun r => relPairKey r == k)).countP
            (activeForPair k) ≤ 1 :=
          countP_processGroupP_le_one _ _ (activeForPair_deactivate k)
        have h2 : ((ks.flatMap fun k' =>
            processGroupP (rels.filter fun r => relPairKey r == k')).countP
              (activeForPair k)) = 0 := by
          rw [List.countP_eq_zero]
          intro r' hr'
          obtain ⟨k', hk', hmem⟩ := List.mem_flatMap.mp hr'
          have : relPairKey r' = k' := pair_of_mem_group hmem
          have hne : k' ≠ k := fun he => hk (he ▸ hk')
          simp [activeForPair, this, hne]
        omega
      · have h1 : (processGroupP (rels.filter fun r => relPairKey r == k)).countP
            (activeForPair q) = 0 := countP_group_of_ne hkq
        have h2 := ih hks
        omega

theorem countP_inferP_le_one (tables : List TableMetadata)
    (cls : String × String → Option TableClassification) (ps : List String)
    (q : String × String) :
    (inferP tables cls ps).countP (activeForPair q) ≤ 1 := by
  rw [(inferP_perm tables cls ps).countP_eq]
  exact countP_groupedP_aux _ q _ (groupKeys_nodup _)

/-! ### The active relationship of a group is first by column name -/

theorem mem_group_self {rels : List Relationship} {r : Relationship}
    (h : r ∈ groupedP rels) :
    r ∈ processGroupP (rels.filter fun x => relPairKey x == relPairKey r) := by
  obtain ⟨k, -, hmem⟩ := List.mem_flatMap.mp h
  have hk : relPairKey r = k := pair_of_mem_group hmem
  rw [← hk] at hmem
  exact hmem

theorem group_sub_candidates {rels : List Relationship} {k : String × String}
    {r : Relationship} (h : r ∈ rels.filter fun x => relPairKey x == k) : r ∈ rels :=
  (List.mem_filter.mp h).1

theorem inactive_partner {tables : List TableMetadata}
    {cls : String × String → Option TableClassification} {ps : List String}
    {r' : Relationship} (h : r' ∈ inferP tables cls ps) (hin : r'.is_active = false) :
    ∃ ra ∈ inferP tables cls ps,
      relPairKey ra = relPairKey r' ∧ ra.is_active = true ∧ colLE ra r' := by
  have hg := mem_group_self (mem_inferP.mp h)
  set g := (candidatesP tables cls ps).filter fun x => relPairKey x == relPairKey r' with hgdef
  rcases processGroupP_cases g with ⟨hnil, hpg⟩ | ⟨a, hone, hpg⟩ | ⟨x, xs, hs, hpg, hsort⟩
  · rw [hpg] at hg; cases hg
  · rw [hpg] at hg
    have : r' = a := List.mem_singleton.mp hg
    subst this
    have : r' ∈ g := by rw [hone]; exact List.mem_singleton.mpr rfl
    have := candidatesP_active (group_sub_candidates this)
    rw [hin] at this
    cases this
  · rw [hpg] at hg
    have hperm := List.perm_insertionSort colLE g
    rw [hs] at hperm
    have hxg : x ∈ g := hperm.mem_iff.mp (List.mem_cons_self _ _)
    rcases List.mem_cons.mp hg with rfl | hmem
    · have := candidatesP_active (group_sub_candidates hxg)
      rw [hin] at this
      cases this
    · obtain ⟨y, hy, rfl⟩ := List.mem_map.mp hmem
      have hxc : x ∈ candidatesP tables cls ps := group_sub_candidates hxg
      have hxk : relPairKey x = relPairKey (deactivate y) := by
        simpa using (List.mem_filter.mp hxg).2
      refine ⟨x, ?_, hxk, candidatesP_active hxc, ?_⟩
      · apply mem_inferP.mpr
        refine List.mem_flatMap.mpr ⟨relPairKey (deactivate y), ?_, ?_⟩
        · rw [← hxk]
          exact relPairKey_mem_groupKeys hxc
        · rw [← hgdef, hpg]
          exact List.mem_cons_self _ _
      · exact (List.pairwise_cons.mp hsort).1 y hy

theorem colLE_refl (r : Relationship) : colLE r r :=
  le_refl r.from_column.data

theorem active_minimal {tables : List TableMetadata}
    {cls : String × String → Option TableClassification} {ps : List String}
    {r r'' : Relationship}
    (hr : r ∈ inferP tables cls ps) (hact : r.is_active = true)
    (hr'' : r'' ∈ inferP tables cls ps) (hpair : relPairKey r'' = relPairKey r) :
    colLE r r'' := by
  have hgr := mem_group_self (mem_inferP.mp hr)
  have hgr'' := mem_group_self (mem_inferP.mp hr'')
  rw [hpair] at hgr''
  rcases processGroupP_cases
      ((candidatesP tables cls ps).filter fun x => relPairKey x == relPairKey r) with
    ⟨-, hpg⟩ | ⟨a, -, hpg⟩ | ⟨x, xs, hs, hpg, hsort⟩
  · rw [hpg] at hgr; cases hgr
  · rw [hpg] at hgr hgr''
    rw [List.mem_singleton.mp hgr, List.mem_singleton.mp hgr'']
    exact colLE_refl a
  · rw [hpg] at hgr hgr''
    rcases List.mem_cons.mp hgr with rfl | hmem
    · rcases List.mem_cons.mp hgr'' with rfl | hmem''
      · exact colLE_refl _
      · obtain ⟨y, hy, rfl⟩ := List.mem_map.mp hmem''
        exact (List.pairwise_cons.mp hsort).1 y hy
    · obtain ⟨y, -, rfl⟩ := List.mem_map.mp hmem
      cases hact

theorem inferP_fields {tables : List TableMetadata}
    {cls : String × String → Option TableClassification} {ps : List String}
    {r : Relationship} (h : r ∈ inferP tables cls ps) :
    r.id = relIdStr r.from_table r.from_column r.to_table r.to_column ∧
    r.cross_filtering_behavior = "oneDirection" ∧
    r.from_cardinality = "many" ∧ r.to_cardinality = "one" := by
  obtain ⟨c, hc, hcase⟩ := mem_inferP_structure h
  obtain ⟨ft, fc, tt, tc, rfl⟩ := candidatesP_shape hc
  rcases hcase with rfl | rfl
  · exact ⟨rfl, rfl, rfl, rfl⟩
  · exact ⟨rfl, rfl, rfl, rfl⟩

/-! ### Claim theorems: invariants of the output -/

/-- C3: in every output of `infer_relationships`, at most one relationship
per `(fromTable, toTable)` pair is active; every inactive relationship has
an active partner on the same pair whose `fromColumn` is lexicographically
no larger; an active relationship has the smallest `fromColumn` of its
pair; and every relationship (active or rewritten inactive) keeps the
identifier and the fixed fields derived from its own column endpoints. -/
theorem c3_at_most_one_active_per_pair (tables : List TableMetadata)
    (cls : String × String → Option TableClassification) (ps : List String)
    (rs : List Relationship)
    (h : infer_relationships tables cls ps = .ok rs) :
    (∀ q, rs.countP (activeForPair q) ≤ 1) ∧
    (∀ r' ∈ rs, r'.is_active = false →
      ∃ ra ∈ rs, relPairKey ra = relPairKey r' ∧ ra.is_active = true ∧ colLE ra r') ∧
    (∀ r ∈ rs, r.is_active = true →
      ∀ r'' ∈ rs, relPairKey r'' = relPairKey r → colLE r r'') ∧
    (∀ r ∈ rs, r.id = relIdStr r.from_table r.from_column r.to_table r.to_column ∧
      r.cross_filtering_behavior = "oneDirection" ∧ r.from_cardinality = "many" ∧
      r.to_cardinality = "one") := by
  rw [infer_relationships_eq_ok] at h
  injection h with h
  subst h
  refine ⟨countP_inferP_le_one tables cls ps, ?_, ?_, ?_⟩
  · exact fun r' h' hin => inactive_partner h' hin
  · exact fun r hr hact r'' hr'' hpair => active_minimal hr hact hr'' hpair
  · exact fun r hr => inferP_fields hr

/-- Witness for C3 on the spec's role-playing scenario. -/
theorem c3_witness :
    ([mkCandidate "dbo.FactSales" "ID_Customer" "dbo.DimCustomer" "ID_Customer",
      deactivate (mkCandidate "dbo.FactSales" "ID_Customer_ShipTo" "dbo.DimCustomer"
        "ID_Customer")].countP (activeForPair ("dbo.FactSales", "dbo.DimCustomer"))) ≤ 1 :=
  (c3_at_most_one_active_per_pair [exDimCustomer, exFactSales] exCls ["ID_"] _ (by rfl)).1
    ("dbo.FactSales", "dbo.DimCustomer")

/-- C6: the output sequence of `infer_relationships` is sorted (ascending,
possibly with equal neighbours) by the lexicographic tuple order on
`(fromTable, fromColumn, toTable, toColumn)`. -/
theorem c6_output_sorted (tables : List TableMetadata)
    (cls : String × String → Option TableClassification) (ps : List String)
    (rs : List Relationship)
    (h : infer_relationships tables cls ps = .ok rs) :
    rs.Pairwise relLE := by
  rw [infer_relationships_eq_ok] at h
  injection h with h
  subst h
  unfold inferP
  split
  · exact List.Pairwise.nil
  · exact List.sorted_insertionSort relLE _

/-- Witness for C6 on the spec's role-playing scenario. -/
theorem c6_witness :
    List.Pairwise relLE
      [mkCandidate "dbo.FactSales" "ID_Customer" "dbo.DimCustomer" "ID_Customer",
       deactivate (mkCandidate "dbo.FactSales" "ID_Customer_ShipTo" "dbo.DimCustomer"
         "ID_Customer")] :=
  c6_output_sorted [exDimCustomer, exFactSales] exCls ["ID_"] _ (by rfl)

/-- C7: `infer_relationships` is deterministic — equal inputs give equal
outputs (it is a pure function of its three arguments) — and every output
relationship's identifier is the embedded
`generate_deterministic_uuid "relationship" (fromTable.fromColumn->toTable.toColumn)`
value, i.e. the `uuid5` composite string of its own endpoints. -/
theorem c7_deterministic (t t' : List TableMetadata)
    (c c' : String × String → Option TableClassification) (p p' : List String)
    (h1 : t = t') (h2 : c = c') (h3 : p = p') :
    infer_relationships t c p = infer_relationships t' c' p' ∧
    ∀ rs, infer_relationships t c p = .ok rs →
      ∀ r ∈ rs, generate_deterministic_uuid "relationship"
        (r.from_table ++ "." ++ r.from_column ++ "->" ++ r.to_table ++ "." ++ r.to_column)
        = .ok r.id := by
  subst h1; subst h2; subst h3
  refine ⟨rfl, ?_⟩
  intro rs h r hr
  rw [infer_relationships_eq_ok] at h
  injection h with h
  subst h
  rw [generate_uuid_relationship_ok]
  rw [(inferP_fields hr).1]

/-- Witness for C7 on the spec's role-playing scenario. -/
theorem c7_witness :
    infer_relationships [exDimCustomer, exFactSales] exCls ["ID_"]
      = infer_relationships [exDimCustomer, exFactSales] exCls ["ID_"] :=
  (c7_deterministic [exDimCustomer, exFactSales] [exDimCustomer, exFactSales]
    exCls exCls ["ID_"] ["ID_"] rfl rfl rfl).1

/-- C8: the embedded core is total: `infer_relationships` returns `.ok` on
every input (the only `raise` sites — empty uuid parts and an empty
role-playing group — are unreachable), and the edge cases of empty tables,
empty prefixes and empty column lists resolve to an empty result or to
Unclassified rather than an error. -/
theorem c8_no_exceptions (tables : List TableMetadata)
    (cls : String × String → Option TableClassification) (ps : List String)
    (columns : List ColumnMetadata) :
    (∃ rs, infer_relationships tables cls ps = .ok rs) ∧
    infer_relationships [] cls ps = .ok [] ∧
    infer_relationships tables cls [] = .ok [] ∧
    classify_table [] ps = .unclassified ∧
    classify_table columns [] = .unclassified := by
  refine ⟨⟨inferP tables cls ps, infer_relationships_eq_ok tables cls ps⟩, rfl, ?_, rfl, ?_⟩
  · rw [infer_relationships_eq_ok]
    have hc : candidatesP tables cls [] = [] := by
      unfold candidatesP
      rw [List.flatMap_eq_nil_iff]
      intro f _
      rw [List.flatMap_eq_nil_iff]
      intro col _
      rfl
    unfold inferP
    rw [hc]
    split
    · rfl
    · rfl
  · have hz : columns.countP (fun col => List.any [] fun p => pyStartswith col.name p) = 0 :=
      List.countP_eq_zero.mpr fun a _ => by simp
    unfold classify_table
    rw [hz]
    rfl

/-- C9: constructing a Column raises exactly when the name is empty or the
ordinal position is below 1, with the two descriptive messages of
`ColumnMetadata.__post_init__`; construction succeeds otherwise. -/
theorem c9_column_validation (c : ColumnMetadata) :
    (ColumnMetadata.validate c = .ok c ↔ c.name ≠ "" ∧ 1 ≤ c.ordinal_position) ∧
    (c.name = "" → ColumnMetadata.validate c = .error "Column name cannot be empty") ∧
    (c.name ≠ "" → c.ordinal_position < 1 →
      ColumnMetadata.validate c = .error "Ordinal position must be >= 1") := by
  unfold ColumnMetadata.validate
  by_cases h1 : c.name = ""
  · rw [if_pos h1]
    exact ⟨⟨fun h => Except.noConfusion h, fun hc => absurd h1 hc.1⟩,
      fun _ => rfl, fun hn _ => absurd h1 hn⟩
  · rw [if_neg h1]
    by_cases h2 : c.ordinal_position < 1
    · rw [if_pos h2]
      exact ⟨⟨fun h => Except.noConfusion h, fun hc => absurd h2 (by omega)⟩,
        fun he => absurd he h1, fun _ _ => rfl⟩
    · rw [if_neg h2]
      exact ⟨⟨fun _ => ⟨h1, by omega⟩, fun _ => rfl⟩,
        fun he => absurd he h1, fun _ hlt => absurd hlt h2⟩

/-- Witness for C9: a concrete valid column is accepted unchanged. -/
theorem c9_witness : ColumnMetadata.validate (exCol "SK_ID" 1) = .ok (exCol "SK_ID" 1) :=
  (c9_column_validation (exCol "SK_ID" 1)).1.mpr (by decide)

/-- C4: `classify_table` maps a key-column count of 0 to Unclassified, 1
to Dimension and 2-or-more to Fact; empty columns or empty prefixes give
Unclassified, and prefix matching is case-sensitive (`sk_Id` does not
match `SK_`). -/
theorem c4_classification_thresholds (columns : List ColumnMetadata) (ps : List String) :
    (columns.countP (fun col => ps.any fun p => pyStartswith col.name p) = 0 →
      classify_table columns ps = .unclassified) ∧
    (columns.countP (fun col => ps.any fun p => pyStartswith col.name p) = 1 →
      classify_table columns ps = .dimension) ∧
    (2 ≤ columns.countP (fun col => ps.any fun p => pyStartswith col.name p) →
      classify_table columns ps = .fact) ∧
    classify_table [] ps = .unclassified ∧
    classify_table columns [] = .unclassified ∧
    pyStartswith "sk_Id" "SK_" = false ∧
    classify_table [exCol "sk_Id" 1] ["SK_"] = .unclassified := by
  refine ⟨?_, ?_, ?_, rfl, ?_, by decide, by decide⟩
  · intro h
    simp [classify_table, h]
  · intro h
    simp [classify_table, h]
  · intro h
    have h1 : ¬(columns.countP (fun col => ps.any fun p => pyStartswith col.name p) = 1) := by
      omega
    simp [classify_table, h1, h]
  · have hz : columns.countP (fun col => List.any [] fun p => pyStartswith col.name p) = 0 :=
      List.countP_eq_zero.mpr fun a _ => by simp
    unfold classify_table
    rw [hz]
    rfl

/-- Witness for C4: a table with exactly one key column is a dimension. -/
theorem c4_witness : classify_table [exCol "SK_Customer" 1] ["SK_"] = .dimension :=
  (c4_classification_thresholds [exCol "SK_Customer" 1] ["SK_"]).2.1 (by decide)

/-! ### Provenance of dimension-lookup entries -/

theorem dictInsert_mem {d : DimLookup} {k : String} {v : String × String}
    {e : String × String × String} (h : e ∈ dictInsert d k v) : e ∈ d ∨ e = (k, v) := by
  unfold dictInsert at h
  split at h
  · obtain ⟨x, hx, hxe⟩ := List.mem_map.mp h
    by_cases hk : (x.1 == k) = true
    · rw [if_pos hk] at hxe
      exact Or.inr hxe.symm
    · rw [if_neg hk] at hxe
      exact Or.inl (hxe ▸ hx)
  · rcases List.mem_append.mp h with h' | h'
    · exact Or.inl h'
    · exact Or.inr (List.mem_singleton.mp h')

theorem mem_buildDimLookup_aux (ps : List String) {e : String × String × String} :
    ∀ (dims : List TableMetadata) (acc : DimLookup),
      e ∈ dims.foldl
        (fun d dim =>
          match dimEntry ps dim with
          | some (b, q, c) => dictInsert d b (q, c)
          | none => d) acc →
      e ∈ acc ∨ ∃ d ∈ dims, dimEntry ps d = some e := by
  intro dims
  induction dims with
  | nil => exact fun acc h => Or.inl h
  | cons d ds ih =>
      intro acc h
      rw [List.foldl_cons] at h
      rcases ih _ h with h' | ⟨d', hd', he⟩
      · cases hq : dimEntry ps d with
        | none => rw [hq] at h'; exact Or.inl h'
        | some bqc =>
            obtain ⟨b, q, c⟩ := bqc
            rw [hq] at h'
            rcases dictInsert_mem h' with h'' | rfl
            · exact Or.inl h''
            · exact Or.inr ⟨d, List.mem_cons_self _ _, hq⟩
      · exact Or.inr ⟨d', List.mem_cons_of_mem _ hd', he⟩

theorem mem_buildDimLookup {dims : List TableMetadata} {ps : List String}
    {e : String × String × String} (h : e ∈ buildDimLookup dims ps) :
    ∃ d ∈ dims, dimEntry ps d = some e := by
  rcases mem_buildDimLookup_aux ps dims [] h with h' | h'
  · cases h'
  · exact h'

theorem dimEntry_some_iff {ps : List String} {d : TableMetadata}
    {e : String × String × String} :
    dimEntry ps d = some e ↔
      ∃ col, d.columns.filter (fun c => (stripPfx c.name ps).isSome) = [col] ∧
        stripPfx col.name ps = some e.1 ∧ e.1 ≠ "" ∧
        is_exact_match col.name ps = false ∧
        e.2 = (d.schema_name ++ "." ++ d.table_name, col.name) := by
  obtain ⟨e1, e2, e3⟩ := e
  cases hfl : d.columns.filter (fun c => (stripPfx c.name ps).isSome) with
  | nil =>
      have hd : dimEntry ps d = none := by unfold dimEntry; rw [hfl]
      rw [hd]
      constructor
      · intro hsome; cases hsome
      · rintro ⟨col', hflt, -⟩
        cases hflt
  | cons c0 tl =>
      cases tl with
      | cons c1 tl' =>
          have hd : dimEntry ps d = none := by unfold dimEntry; rw [hfl]
          rw [hd]
          constructor
          · intro hsome; cases hsome
          · rintro ⟨col', hflt, -⟩
            injection hflt with h1 h2
            cases h2
      | nil =>
          have hd : dimEntry ps d =
              (match stripPfx c0.name ps with
               | some dim_base =>
                   if dim_base != "" && !(is_exact_match c0.name ps) then
                     some (dim_base, d.schema_name ++ "." ++ d.table_name, c0.name)
                   else none
               | none => none) := by
            unfold dimEntry; rw [hfl]
          cases hb : stripPfx c0.name ps with
          | none =>
              have hd4 : dimEntry ps d = none := by rw [hd, hb]
              rw [hd4]
              constructor
              · intro hsome; cases hsome
              · rintro ⟨col', hflt, hstrip, -⟩
                injection hflt with h1 h2
                subst h1
                rw [hb] at hstrip
                cases hstrip
          | some b =>
              have hd3 : dimEntry ps d =
                  if b != "" && !(is_exact_match c0.name ps) then
                    some (b, d.schema_name ++ "." ++ d.table_name, c0.name)
                  else none := by rw [hd, hb]
              rw [hd3]
              by_cases hcond : (b != "" && !(is_exact_match c0.name ps)) = true
              · rw [if_pos hcond]
                obtain ⟨h1, h2⟩ := Bool.and_eq_true_iff.mp hcond
                constructor
                · intro hsome
                  injection hsome with hsome
                  obtain ⟨rfl, he2⟩ := Prod.mk.injEq .. |>.mp hsome
                  obtain ⟨rfl, rfl⟩ := Prod.mk.injEq .. |>.mp he2
                  refine ⟨c0, rfl, hb, ?_, ?_, rfl⟩
                  · simpa using h1
                  · simpa using h2
                · rintro ⟨col', hflt, hstrip, hne, hex, he2⟩
                  injection hflt with h1 h2
                  subst h1
                  rw [hb] at hstrip
                  injection hstrip with hstrip
                  subst hstrip
                  obtain ⟨rfl, rfl⟩ := Prod.mk.injEq .. |>.mp he2
                  rfl
              · rw [if_neg hcond]
                constructor
                · intro hsome; cases hsome
                · rintro ⟨col', hflt, hstrip, hne, hex, -⟩
                  injection hflt with h1 h2
                  subst h1
                  rw [hb] at hstrip
                  injection hstrip with hstrip
                  subst hstrip
                  exact (hcond (by simp [hne, hex])).elim

theorem dictGet?_mem {dl : DimLookup} {b : String} {qc : String × String}
    (h : dictGet? dl b = some qc) : (b, qc) ∈ dl := by
  unfold dictGet? at h
  cases hf : dl.find? (fun e => e.1 == b) with
  | none => rw [hf] at h; cases h
  | some e =>
      rw [hf] at h
      injection h with h
      have he : e ∈ dl := List.mem_of_find?_eq_some hf
      have hb : e.1 = b := by simpa using List.find?_some hf
      rw [← h, ← hb]
      exact he

theorem firstRolePlay_mem {b : String} {qc : String × String} :
    ∀ {dl : DimLookup}, firstRolePlay dl b = some qc → ∃ b', (b', qc) ∈ dl := by
  intro dl
  induction dl with
  | nil => intro h; cases h
  | cons e rest ih =>
      obtain ⟨db, v⟩ := e
      intro h
      unfold firstRolePlay at h
      split at h
      · injection h with h
        subst h
        exact ⟨db, List.mem_cons_self _ _⟩
      · obtain ⟨b', hb'⟩ := ih h
        exact ⟨b', List.mem_cons_of_mem _ hb'⟩

theorem matchTarget_mem {dl : DimLookup} {b : String} {qc : String × String}
    (h : matchTarget dl b = some qc) : ∃ b', (b', qc) ∈ dl := by
  unfold matchTarget at h
  cases hg : dictGet? dl b with
  | some qc' =>
      rw [hg] at h
      injection h with h
      subst h
      exact ⟨b, dictGet?_mem hg⟩
  | none =>
      rw [hg] at h
      exact firstRolePlay_mem h

theorem is_exact_match_false_iff (n : String) (ps : List String) :
    is_exact_match n ps = false ↔ n ∉ ps := by
  simp [is_exact_match]

theorem candidatesP_not_exact {tables : List TableMetadata}
    {cls : String × String → Option TableClassification} {ps : List String}
    {r : Relationship} (h : r ∈ candidatesP tables cls ps) :
    is_exact_match r.from_column ps = false ∧ is_exact_match r.to_column ps = false := by
  obtain ⟨f, hf, col, hcol, hmem⟩ := mem_candidatesP.mp h
  obtain ⟨hnex, b, hb, qc, hqc, rfl⟩ := mem_factColCandidateP.mp hmem
  refine ⟨hnex, ?_⟩
  obtain ⟨b', hmem'⟩ := matchTarget_mem hqc
  obtain ⟨d, hd, hde⟩ := mem_buildDimLookup hmem'
  obtain ⟨col', -, -, -, hex, he2⟩ := dimEntry_some_iff.mp hde
  have h3 : qc.2 = col'.name := by rw [show qc = (b', qc).2 from rfl, he2]
  show is_exact_match qc.2 ps = false
  rw [h3]
  exact hex

/-- C5: a column whose name exactly equals one of the configured key
prefixes never appears as `fromColumn` or `toColumn` in any produced
relationship — exact-match fact columns are skipped and exact-match
dimension key columns are never entered into the lookup. -/
theorem c5_exact_prefix_never_endpoint (tables : List TableMetadata)
    (cls : String × String → Option TableClassification) (ps : List String)
    (rs : List Relationship)
    (h : infer_relationships tables cls ps = .ok rs) :
    ∀ r ∈ rs, r.from_column ∉ ps ∧ r.to_column ∉ ps := by
  rw [infer_relationships_eq_ok] at h
  injection h with h
  subst h
  intro r hr
  obtain ⟨c, hc, hcase⟩ := mem_inferP_structure hr
  have hne := candidatesP_not_exact hc
  have hfrom : r.from_column = c.from_column := by
    rcases hcase with rfl | rfl <;> rfl
  have hto : r.to_column = c.to_column := by
    rcases hcase with rfl | rfl <;> rfl
  rw [hfrom, hto]
  exact ⟨(is_exact_match_false_iff _ _).mp hne.1, (is_exact_match_false_iff _ _).mp hne.2⟩

/-- Witness for C5 on the spec's role-playing scenario: the produced
relationship's endpoints are not bare prefixes. -/
theorem c5_witness :
    (mkCandidate "dbo.FactSales" "ID_Customer" "dbo.DimCustomer" "ID_Customer").from_column
        ∉ ["ID_"] ∧
    (mkCandidate "dbo.FactSales" "ID_Customer" "dbo.DimCustomer" "ID_Customer").to_column
        ∉ ["ID_"] :=
  c5_exact_prefix_never_endpoint [exDimCustomer, exFactSales] exCls ["ID_"]
    [mkCandidate "dbo.FactSales" "ID_Customer" "dbo.DimCustomer" "ID_Customer",
     deactivate (mkCandidate "dbo.FactSales" "ID_Customer_ShipTo" "dbo.DimCustomer"
       "ID_Customer")]
    (by rfl)
    (mkCandidate "dbo.FactSales" "ID_Customer" "dbo.DimCustomer" "ID_Customer")
    (List.mem_cons_self _ _)

/-! ### C1: the match is on prefix-stripped base names -/

theorem matchTarget_eq_iff (dl : DimLookup) (b : String) (qc : String × String) :
    matchTarget dl b = some qc ↔
      (dictGet? dl b = some qc ∨
       (dictGet? dl b = none ∧ firstRolePlay dl b = some qc)) := by
  unfold matchTarget
  cases hg : dictGet? dl b with
  | some qc' => simp
  | none => simp

/-- C1 counterexample: with prefixes `["SK_", "FK_"]`, the fact column
`FK_Customer` produces a relationship to the dimension whose key column is
`SK_Customer`, although `FK_Customer` neither equals `SK_Customer` nor
starts with `SK_Customer` followed by an underscore — the code compares
prefix-stripped base names, not full column names as the claim states. -/
theorem c1_counterexample :
    infer_relationships [exDimSK, exFactFK] exClsSD ["SK_", "FK_"]
        = .ok [mkCandidate "s.f" "FK_Customer" "s.d" "SK_Customer"] ∧
    dictGet? (dimLookupOf [exDimSK, exFactFK] exClsSD ["SK_", "FK_"]) "Customer"
        = some ("s.d", "SK_Customer") ∧
    (mkCandidate "s.f" "FK_Customer" "s.d" "SK_Customer").from_column
        ≠ (mkCandidate "s.f" "FK_Customer" "s.d" "SK_Customer").to_column ∧
    pyStartswith "FK_Customer" ("SK_Customer" ++ "_") = false :=
  ⟨by rfl, by rfl, by decide, by decide⟩

/-- C1 (amended): for every fact key column that is not an exact prefix
match, with prefix-stripped base `b`, a relationship from that column to
target `(q, c)` is emitted if and only if the dimension lookup has the
exact base `b` with value `(q, c)`, or no lookup entry has base `b` and
the first entry in lookup insertion order whose base followed immediately
by an underscore prefixes `b` has value `(q, c)`. -/
theorem c1_amended_base_name_matching (tables : List TableMetadata)
    (cls : String × String → Option TableClassification) (ps : List String)
    (rs : List Relationship) (f : TableMetadata) (col : ColumnMetadata) (b q c : String)
    (hrs : infer_relationships tables cls ps = .ok rs)
    (hf : f ∈ tables) (hcls : cls (f.schema_name, f.table_name) = some .fact)
    (hcol : col ∈ f.columns)
    (hnex : is_exact_match col.name ps = false)
    (hstrip : stripPfx col.name ps = some b) :
    (∃ r ∈ rs, r.from_table = qualifiedName f ∧ r.from_column = col.name ∧
        r.to_table = q ∧ r.to_column = c)
      ↔ (dictGet? (dimLookupOf tables cls ps) b = some (q, c) ∨
         (dictGet? (dimLookupOf tables cls ps) b = none ∧
          firstRolePlay (dimLookupOf tables cls ps) b = some (q, c))) := by
  rw [infer_relationships_eq_ok] at hrs
  injection hrs with hrs
  subst hrs
  rw [← matchTarget_eq_iff]
  constructor
  · rintro ⟨r, hr, hft, hfc, htt, htc⟩
    obtain ⟨cand, hcand, hcase⟩ := mem_inferP_structure hr
    have hfields : cand.from_table = qualifiedName f ∧ cand.from_column = col.name ∧
        cand.to_table = q ∧ cand.to_column = c := by
      rcases hcase with rfl | rfl
      · exact ⟨hft, hfc, htt, htc⟩
      · exact ⟨hft, hfc, htt, htc⟩
    obtain ⟨f', hf', col', hcol', hmem⟩ := mem_candidatesP.mp hcand
    obtain ⟨hnex', b', hb', qc, hqc, heq⟩ := mem_factColCandidateP.mp hmem
    subst heq
    obtain ⟨-, hname, hq1, hq2⟩ := hfields
    have hb2 : stripPfx col.name ps = some b' := by rw [← hname]; exact hb'
    rw [hstrip] at hb2
    injection hb2 with hb2
    subst hb2
    have hqeq : qc = (q, c) := by
      rw [← hq1, ← hq2]
      rfl
    rw [← hqeq]
    exact hqc
  · intro hrhs
    have hcand : mkCandidate (qualifiedName f) col.name q c ∈ candidatesP tables cls ps := by
      apply mem_candidatesP.mpr
      refine ⟨f, List.mem_filter.mpr ⟨hf, by simp [hcls]⟩, col, hcol, ?_⟩
      exact mem_factColCandidateP.mpr ⟨hnex, b, hstrip, (q, c), hrhs, rfl⟩
    rcases mem_groupedP_of_mem hcand with h' | h'
    · exact ⟨_, mem_inferP.mpr h', rfl, rfl, rfl, rfl⟩
    · exact ⟨_, mem_inferP.mpr h', rfl, rfl, rfl, rfl⟩

/-- Witness for the amended C1: in the `SK_`/`FK_` scenario, the fact
column `FK_Customer` (base `Customer`) is matched to the dimension entry
of base `Customer` and the relationship is present in the output. -/
theorem c1_witness :
    ∃ r ∈ [mkCandidate "s.f" "FK_Customer" "s.d" "SK_Customer"],
      r.from_table = qualifiedName exFactFK ∧ r.from_column = (exCol "FK_Customer" 1).name ∧
      r.to_table = "s.d" ∧ r.to_column = "SK_Customer" :=
  (c1_amended_base_name_matching [exDimSK, exFactFK] exClsSD ["SK_", "FK_"]
    [mkCandidate "s.f" "FK_Customer" "s.d" "SK_Customer"] exFactFK
    (exCol "FK_Customer" 1) "Customer" "s.d" "SK_Customer" (by rfl) (by decide)
    (by rfl) (by decide) (by rfl) (by rfl)).mpr (Or.inl (by rfl))

/-! ### C2: which dimensions enter the matching lookup -/

theorem strip_empty_exact {n : String} {ps : List String}
    (h : stripPfx n ps = some "") : is_exact_match n ps = true := by
  induction ps with
  | nil => cases h
  | cons p ps' ih =>
      unfold stripPfx at h
      split at h
      next hpre =>
        injection h with h
        have hdata : n.data.drop p.data.length = [] := congrArg String.data h
        obtain ⟨t, ht⟩ := List.isPrefixOf_iff_prefix.mp hpre
        have htn : n.data = p.data ++ t := ht.symm
        rw [htn, List.drop_left] at hdata
        subst hdata
        have hnp : n = p := congrArg String.mk (by rw [htn, List.append_nil])
        simp [is_exact_match, hnp]
      next hpre =>
        have := ih h
        simp [is_exact_match] at this ⊢
        exact Or.inr this

/-- C2 counterexample: the dimension `exDimExact` has columns `SK_` and
`SK_Customer`, hence exactly one non-exact-match key column, yet it is not
entered into the lookup (the code counts the bare-prefix column too), and
the matching fact produces no relationship at all. -/
theorem c2_counterexample :
    (exDimExact.columns.countP fun c =>
        (stripPfx c.name ["SK_"]).isSome && !(is_exact_match c.name ["SK_"])) = 1 ∧
    dimEntry ["SK_"] exDimExact = none ∧
    infer_relationships [exDimExact, exFactSK] exClsSD ["SK_"] = .ok [] :=
  ⟨by decide, by rfl, by rfl⟩

/-- C2 (amended): a Dimension-classified table is entered into the
matching lookup iff it has exactly one prefix-matching column — counting
bare-prefix (exact-match) columns in that count — and that single column
is not itself an exact match of a prefix; tables failing the test are
skipped silently. -/
theorem c2_amended_dim_qualification (ps : List String) (d : TableMetadata) :
    (∃ e, dimEntry ps d = some e) ↔
      ∃ col, d.columns.filter (fun c => (stripPfx c.name ps).isSome) = [col] ∧
        is_exact_match col.name ps = false := by
  constructor
  · rintro ⟨e, he⟩
    obtain ⟨col, hflt, -, -, hex, -⟩ := dimEntry_some_iff.mp he
    exact ⟨col, hflt, hex⟩
  · rintro ⟨col, hflt, hex⟩
    have hcol : col ∈ d.columns.filter (fun c => (stripPfx c.name ps).isSome) := by
      rw [hflt]
      exact List.mem_singleton.mpr rfl
    have hsome : (stripPfx col.name ps).isSome := by
      simpa using (List.mem_filter.mp hcol).2
    obtain ⟨b, hb⟩ := Option.isSome_iff_exists.mp hsome
    have hbne : b ≠ "" := by
      intro hbe
      subst hbe
      have := strip_empty_exact hb
      rw [hex] at this
      cases this
    exact ⟨(b, d.schema_name ++ "." ++ d.table_name, col.name),
      dimEntry_some_iff.mpr ⟨col, hflt, hb, hbne, hex, rfl⟩⟩

/-- Witness for the amended C2: the single-key dimension of the worked
scenario qualifies for the lookup. -/
theorem c2_witness : ∃ e, dimEntry ["ID_"] exDimCustomer = some e :=
  (c2_amended_dim_qualification ["ID_"] exDimCustomer).mpr
    ⟨exCol "ID_Customer" 1, by rfl, by rfl⟩

/-! ### C10: base-name collisions are resolved to the last dimension -/

theorem find?_map_insert_self (d : DimLookup) (k : String) (v : String × String)
    (hc : (d.any fun e => e.1 == k) = true) :
    ((d.map fun e => if e.1 == k then (k, v) else e).find? fun e => e.1 == k)
      = some (k, v) := by
  induction d with
  | nil => cases hc
  | cons e rest ih =>
      rw [List.map_cons]
      by_cases hek : (e.1 == k) = true
      · rw [if_pos hek]
        simp only [List.find?_cons, beq_self_eq_true]
      · rw [if_neg hek]
        have hekf : (e.1 == k) = false := by simpa using hek
        simp only [List.find?_cons, hekf]
        apply ih
        simp only [List.any_cons, Bool.or_eq_true] at hc
        exact (hc.resolve_left hek)

theorem find?_append_insert (d : DimLookup) (k : String) (v : String × String)
    (hc : (d.any fun e => e.1 == k) = false) :
    ((d ++ [(k, v)]).find? fun e => e.1 == k) = some (k, v) := by
  rw [List.find?_append]
  have hnone : (d.find? fun e => e.1 == k) = none := by
    rw [List.find?_eq_none]
    intro x hx hbeq
    have hany : (d.any fun e => e.1 == k) = true := List.any_eq_true.mpr ⟨x, hx, hbeq⟩
    rw [hc] at hany
    cases hany
  rw [hnone]
  simp

theorem dictGet?_dictInsert_self (d : DimLookup) (k : String) (v : String × String) :
    dictGet? (dictInsert d k v) k = some v := by
  unfold dictGet? dictInsert
  by_cases hc : (d.any fun e => e.1 == k) = true
  · rw [if_pos hc, find?_map_insert_self d k v hc]
    rfl
  · rw [if_neg hc, find?_append_insert d k v (Bool.eq_false_iff.mpr hc)]
    rfl

theorem find?_map_insert_ne (d : DimLookup) (k : String) (v : String × String)
    (k' : String) (hne : k' ≠ k) :
    ((d.map fun e => if e.1 == k then (k, v) else e).find? fun e => e.1 == k')
      = d.find? fun e => e.1 == k' := by
  induction d with
  | nil => rfl
  | cons e rest ih =>
      rw [List.map_cons]
      by_cases hek : (e.1 == k) = true
      · rw [if_pos hek]
        have he1 : e.1 = k := by simpa using hek
        have h1 : ((k : String) == k') = false := by simpa using (Ne.symm hne)
        have h2 : (e.1 == k') = false := by
          rw [he1]
          exact h1
        simp only [List.find?_cons, h1, h2]
        exact ih
      · rw [if_neg hek]
        by_cases hzk : ((e.1 == k') = true)
        · simp only [List.find?_cons, hzk]
        · have hzkf : (e.1 == k') = false := by simpa using hzk
          simp only [List.find?_cons, hzkf]
          exact ih

theorem dictGet?_dictInsert_ne (d : DimLookup) (k : String) (v : String × String)
    (k' : String) (hne : k' ≠ k) :
    dictGet? (dictInsert d k v) k' = dictGet? d k' := by
  unfold dictGet? dictInsert
  by_cases hc : (d.any fun e => e.1 == k) = true
  · rw [if_pos hc, find?_map_insert_ne d k v k' hne]
  · rw [if_neg hc, List.find?_append]
    have hkk' : ((k : String) == k') = false := by simpa using (Ne.symm hne)
    have h1 : ([(k, v)].find? fun e => e.1 == k') = none := by
      simp [List.find?_cons, hkk']
    rw [h1, Option.or_none]

theorem buildDimLookup_get_aux (ps : List String) (b : String) :
    ∀ (dims : List TableMetadata) (acc : DimLookup),
      dictGet? (dims.foldl
        (fun d dim =>
          match dimEntry ps dim with
          | some (b', q, c) => dictInsert d b' (q, c)
          | none => d) acc) b =
      (match ((dims.filterMap (dimEntry ps)).filter fun e => e.1 == b).getLast? with
       | some e => some e.2
       | none => dictGet? acc b) := by
  intro dims
  induction dims with
  | nil => intro acc; rfl
  | cons d ds ih =>
      intro acc
      rw [List.foldl_cons]
      cases hq : dimEntry ps d with
      | none =>
          rw [List.filterMap_cons_none hq]
          exact ih acc
      | some e =>
          obtain ⟨b', q, c⟩ := e
          have h2 := ih (dictInsert acc b' (q, c))
          rw [List.filterMap_cons_some hq]
          by_cases hb' : ((b' == b) = true)
          · have hfe : List.filter (fun e => e.1 == b)
                  ((b', q, c) :: List.filterMap (dimEntry ps) ds)
                = (b', q, c) :: List.filter (fun e => e.1 == b)
                    (List.filterMap (dimEntry ps) ds) := by
              simp [List.filter_cons, hb']
            rw [hfe]
            cases hrest : List.filter (fun e => e.1 == b) (List.filterMap (dimEntry ps) ds)
              with
            | nil =>
                rw [hrest] at h2
                have hbb : b' = b := by simpa using hb'
                subst hbb
                rw [dictGet?_dictInsert_self acc b' (q, c)] at h2
                exact h2
            | cons y ys =>
                rw [List.getLast?_cons_cons]
                rw [hrest] at h2
                exact h2
          · have hb'f : (b' == b) = false := by simpa using hb'
            have hfe : List.filter (fun e => e.1 == b)
                  ((b', q, c) :: List.filterMap (dimEntry ps) ds)
                = List.filter (fun e => e.1 == b) (List.filterMap (dimEntry ps) ds) := by
              simp [List.filter_cons, hb'f]
            rw [hfe]
            cases hrest : (List.filter (fun e => e.1 == b)
                (List.filterMap (dimEntry ps) ds)).getLast? with
            | some z =>
                rw [hrest] at h2
                exact h2
            | none =>
                rw [hrest] at h2
                rw [dictGet?_dictInsert_ne acc b' (q, c) b
                  (Ne.symm (by simpa using hb'f))] at h2
                exact h2

theorem dictInsert_keys_nodup {d : DimLookup} (hd : (d.map (·.1)).Nodup)
    (k : String) (v : String × String) : ((dictInsert d k v).map (·.1)).Nodup := by
  unfold dictInsert
  by_cases hc : (d.any fun e => e.1 == k) = true
  · rw [if_pos hc]
    have hkeys : ((d.map fun e => if e.1 == k then (k, v) else e).map (·.1))
        = d.map (·.1) := by
      rw [List.map_map]
      apply List.map_congr_left
      intro e _
      by_cases hek : e.1 = k
      · simp [hek]
      · simp [hek]
    rw [hkeys]
    exact hd
  · rw [if_neg hc]
    rw [List.map_append, List.nodup_append]
    refine ⟨hd, List.nodup_singleton _, ?_⟩
    intro x hx hx'
    have hxk : x = k := by simpa using hx'
    subst hxk
    obtain ⟨e, he, hek⟩ := List.mem_map.mp hx
    exact hc (List.any_eq_true.mpr ⟨e, he, by simp [hek]⟩)

theorem buildDimLookup_keys_nodup_aux (ps : List String) :
    ∀ (dims : List TableMetadata) (acc : DimLookup), (acc.map (·.1)).Nodup →
      ((dims.foldl
        (fun d dim =>
          match dimEntry ps dim with
          | some (b', q, c) => dictInsert d b' (q, c)
          | none => d) acc).map (·.1)).Nodup := by
  intro dims
  induction dims with
  | nil => exact fun acc h => h
  | cons d ds ih =>
      intro acc hacc
      rw [List.foldl_cons]
      apply ih
      cases hq : dimEntry ps d with
      | none => exact hacc
      | some e =>
          obtain ⟨b', q, c⟩ := e
          exact dictInsert_keys_nodup hacc b' (q, c)

theorem buildDimLookup_keys_nodup (dims : List TableMetadata) (ps : List String) :
    ((buildDimLookup dims ps).map (·.1)).Nodup :=
  buildDimLookup_keys_nodup_aux ps dims [] List.nodup_nil

theorem dictGet?_of_mem_nodup {dl : DimLookup} (hnd : (dl.map (·.1)).Nodup)
    {e : String × String × String} (he : e ∈ dl) : dictGet? dl e.1 = some e.2 := by
  induction dl with
  | nil => cases he
  | cons x rest ih =>
      have hnd' := hnd
      rw [List.map_cons, List.nodup_cons] at hnd'
      rcases List.mem_cons.mp he with rfl | hmem
      · unfold dictGet?
        simp only [List.find?_cons, beq_self_eq_true]
        rfl
      · have hx1 : (x.1 == e.1) = false := by
          rw [beq_eq_false_iff_ne]
          intro hb
          exact hnd'.1 (hb ▸ List.mem_map.mpr ⟨e, hmem, rfl⟩)
        unfold dictGet?
        simp only [List.find?_cons, hx1]
        exact ih hnd'.2 hmem

/-- C10: when several qualifying dimensions share a prefix-stripped base
name, the lookup value of that base is the entry of the LAST such
dimension in input order (later Python dict assignments overwrite earlier
ones), and every produced relationship targets the lookup value of some
base — hence the last dimension for its base. -/
theorem c10_last_dimension_wins (tables : List TableMetadata)
    (cls : String × String → Option TableClassification) (ps : List String)
    (rs : List Relationship) (b : String)
    (hrs : infer_relationships tables cls ps = .ok rs) :
    (dictGet? (dimLookupOf tables cls ps) b =
      (match (((dimensionsOf tables cls).filterMap (dimEntry ps)).filter
          fun e => e.1 == b).getLast? with
       | some e => some e.2
       | none => none)) ∧
    (∀ r ∈ rs, ∃ b',
      dictGet? (dimLookupOf tables cls ps) b' = some (r.to_table, r.to_column)) := by
  constructor
  · rw [show dimLookupOf tables cls ps
        = buildDimLookup (dimensionsOf tables cls) ps from rfl]
    rw [show buildDimLookup (dimensionsOf tables cls) ps
        = (dimensionsOf tables cls).foldl
          (fun d dim =>
            match dimEntry ps dim with
            | some (b', q, c) => dictInsert d b' (q, c)
            | none => d) [] from rfl]
    rw [buildDimLookup_get_aux ps b (dimensionsOf tables cls) []]
    rfl
  · rw [infer_relationships_eq_ok] at hrs
    injection hrs with hrs
    subst hrs
    intro r hr
    obtain ⟨c, hc, hcase⟩ := mem_inferP_structure hr
    obtain ⟨f, -, col, -, hmem⟩ := mem_candidatesP.mp hc
    obtain ⟨-, bb, -, qc, hqc, heq⟩ := mem_factColCandidateP.mp hmem
    obtain ⟨b', hmem'⟩ := matchTarget_mem hqc
    refine ⟨b', ?_⟩
    have hget : dictGet? (dimLookupOf tables cls ps) b' = some qc :=
      dictGet?_of_mem_nodup (buildDimLookup_keys_nodup _ _) hmem'
    have hto : (r.to_table, r.to_column) = qc := by
      subst heq
      rcases hcase with rfl | rfl
      · rfl
      · rfl
    rw [hto]
    exact hget

/-- Witness for C10: with dimensions `s.d1` (key `SK_Customer`) and `s.d2`
(key `ID_Customer`) both stripping to base `Customer`, the lookup holds the
last one, `s.d2`. -/
theorem c10_witness :
    dictGet? (dimLookupOf [exDimFirst, exDimLast, exFactSK] exClsTwoDims ["SK_", "ID_"])
        "Customer"
      = (match (((dimensionsOf [exDimFirst, exDimLast, exFactSK] exClsTwoDims).filterMap
            (dimEntry ["SK_", "ID_"])).filter fun e => e.1 == "Customer").getLast? with
         | some e => some e.2
         | none => none) :=
  (c10_last_dimension_wins [exDimFirst, exDimLast, exFactSK] exClsTwoDims ["SK_", "ID_"]
    [mkCandidate "s.f" "SK_Customer" "s.d2" "ID_Customer"] "Customer" (by rfl)).1

end SemanticModelGenerator
